import Mathlib

/-!
Verification development for the liblcf chunk codec and its Python binding
layer (tools/python/index.cpp).

The generic record reader/writer, the primitive varint codec and the payload
codecs are not part of the excerpted sources, so they are modelled from the
specification (sections 4.1, 4.3, 4.4 and 8 of the design document); every
such definition carries a doc comment starting with "Modelled from the spec".
The encoding-resolution logic, the file-kind dispatch, the module-level
encoding state and the map-path construction are embedded directly from
tools/python/index.cpp.
-/

namespace Lcf

/-! ## Primitive codec (spec section 4.1) -/

/-- Modelled from the spec: helper for the base-128 little-endian
variable-length integer encoder, with explicit fuel so that the definition is
structurally recursive.  The fuel argument is always at least the encoded
value, which makes the fallback branch unreachable. -/
def encodeVarintAux : Nat → Nat → List Nat
  | 0, n => [n % 128]
  | fuel + 1, n => if n < 128 then [n] else (n % 128 + 128) :: encodeVarintAux fuel (n / 128)

/-- Modelled from the spec: `encode_varint` emits the minimal base-128
little-endian encoding of an unsigned integer; bytes below 128 terminate the
sequence, bytes with the high bit set carry seven payload bits each. -/
def encodeVarint (n : Nat) : List Nat := encodeVarintAux n n

/-- Modelled from the spec: `decode_varint` reads a base-128 little-endian
variable-length unsigned integer and returns the value together with the
unconsumed rest of the stream; `none` models the `TruncatedStream` failure
when the stream ends mid-sequence. -/
def decodeVarint : List Nat → Option (Nat × List Nat)
  | [] => none
  | b :: rest =>
    if b < 128 then some (b, rest)
    else
      match decodeVarint rest with
      | some (v, rest2) => some (v * 128 + (b - 128), rest2)
      | none => none

/-- Modelled from the spec: `encode_chunk_header` followed by the payload —
a chunk is the tag as a varint, the payload byte count as a varint, then the
payload bytes themselves. -/
def encodeChunk (tag : Nat) (payload : List Nat) : List Nat :=
  encodeVarint tag ++ encodeVarint payload.length ++ payload

/-! ## Bit-packed boolean arrays -/

/-- Modelled from the spec: value of up to eight booleans packed into one
byte, least significant bit first. -/
def bitsToByte : List Bool → Nat
  | [] => 0
  | b :: bs => (if b then 1 else 0) + 2 * bitsToByte bs

/-- Modelled from the spec: the payload of a bit-packed boolean array field —
eight booleans per byte, least significant bit first. -/
def packBits : List Bool → List Nat
  | [] => []
  | b :: bs => bitsToByte ((b :: bs).take 8) :: packBits ((b :: bs).drop 8)
termination_by l => l.length
decreasing_by
  simp only [List.length_drop, List.length_cons]
  omega

/-- Modelled from the spec: extract the given number of booleans from one
byte, least significant bit first. -/
def byteToBits : Nat → Nat → List Bool
  | 0, _ => []
  | k + 1, b => (b % 2 == 1) :: byteToBits k (b / 2)

/-- Modelled from the spec: decode a bit-packed boolean array payload back
into the declared number of booleans; `none` models a malformed payload whose
byte count does not match the declared bit count. -/
def unpackBits : Nat → List Nat → Option (List Bool)
  | 0, [] => some []
  | 0, _ :: _ => none
  | _ + 1, [] => none
  | n + 1, b :: rest =>
    match unpackBits (n + 1 - min (n + 1) 8) rest with
    | some bs => some (byteToBits (min (n + 1) 8) b ++ bs)
    | none => none

/-! ## Records and trait descriptors (spec section 3 and 4.2)

A trait descriptor and a record instance share one shape: an ordered list of
(tag, value) pairs.  In a descriptor the value is the trait-declared default;
its constructor determines the field kind, and for nested and repeated kinds
it carries the child record type (which is itself the child's descriptor of
defaults). -/

mutual
/-- Modelled from the spec: a field value.  The eight constructors are the
eight field kinds of the data model: boolean, variable-width integer,
floating point (an opaque fixed-width byte block to the codec), raw string,
nested record, repeated nested record (carrying the child descriptor),
fixed-size array of scalars, and bit-packed boolean array. -/
inductive Value where
  | vBool : Bool → Value
  | vInt : Nat → Value
  | vFloat : List Nat → Value
  | vStr : List Nat → Value
  | vRec : Fields → Value
  | vList : Fields → RecList → Value
  | vArr : List Nat → Value
  | vBits : List Bool → Value
  deriving DecidableEq

/-- Modelled from the spec: an ordered list of (tag, value) pairs — both the
trait descriptor (values are defaults) and a record instance. -/
inductive Fields where
  | fnil : Fields
  | fcons : Nat → Value → Fields → Fields
  deriving DecidableEq

/-- Modelled from the spec: the ordered sequence of a repeated-record field's
elements. -/
inductive RecList where
  | rnil : RecList
  | rcons : Fields → RecList → RecList
  deriving DecidableEq
end

/-- Tag lookup in a descriptor or instance. -/
def findField : Fields → Nat → Option Value
  | .fnil, _ => none
  | .fcons t v fs, tag => if t = tag then some v else findField fs tag

/-- Replace the value stored at a tag (first occurrence). -/
def setField : Fields → Nat → Value → Fields
  | .fnil, _, _ => .fnil
  | .fcons t v fs, tag, nv =>
    if t = tag then .fcons t nv fs else .fcons t v (setField fs tag nv)

/-- The list of tags of a descriptor or instance, in declaration order. -/
def fieldTags : Fields → List Nat
  | .fnil => []
  | .fcons t _ fs => t :: fieldTags fs

mutual
/-- Modelled from the spec: well-formedness of a descriptor's default value —
the child descriptor of a nested field is itself well-formed, and a repeated
field's declared default element list is empty. -/
def valWF : Value → Bool
  | .vRec d => fieldsWF d
  | .vList d es => fieldsWF d && (match es with | .rnil => true | .rcons _ _ => false)
  | _ => true

/-- Modelled from the spec: well-formedness of a trait descriptor — tags are
nonzero (tag 0 is the reserved terminator), unique within the record, and
every default value is well-formed. -/
def fieldsWF : Fields → Bool
  | .fnil => true
  | .fcons t v fs =>
    (t != 0) && !((fieldTags fs).contains t) && valWF v && fieldsWF fs
end

mutual
/-- Modelled from the spec: kind-compatibility of an instance value with its
trait-declared default — same field kind; floats keep their declared width,
fixed-size arrays and bit arrays keep their declared element count, nested
and repeated instances are compatible with the child descriptor. -/
def valCompat : Value → Value → Bool
  | .vBool _, .vBool _ => true
  | .vInt _, .vInt _ => true
  | .vFloat a, .vFloat b => a.length == b.length
  | .vStr _, .vStr _ => true
  | .vRec d, .vRec f => fieldsCompat d f
  | .vList d _, .vList d2 es => (d == d2) && recListCompat d es
  | .vArr a, .vArr b => a.length == b.length
  | .vBits a, .vBits b => a.length == b.length
  | _, _ => false

/-- Modelled from the spec: an instance has exactly the fields its descriptor
declares, in the same order, with kind-compatible values. -/
def fieldsCompat : Fields → Fields → Bool
  | .fnil, .fnil => true
  | .fcons t d ds, .fcons t2 v vs => (t == t2) && valCompat d v && fieldsCompat ds vs
  | _, _ => false

/-- Modelled from the spec: every element of a repeated field is compatible
with the child descriptor. -/
def recListCompat : Fields → RecList → Bool
  | _, .rnil => true
  | d, .rcons f fs => fieldsCompat d f && recListCompat d fs
end

/-- Every entry of the second descriptor is found (with the same default)
when looked up in the first, and has a nonzero tag.  Relates a descriptor
suffix being serialized to the full descriptor the reader consults. -/
def subDesc (desc : Fields) : Fields → Bool
  | .fnil => true
  | .fcons t dv ds => (t != 0) && (findField desc t == some dv) && subDesc desc ds

/-! ## Generic record writer (spec section 4.4) -/

/-- Modelled from the spec: payload of a fixed-size scalar array — the
concatenation of the elements' varint encodings. -/
def encodeArr : List Nat → List Nat
  | [] => []
  | x :: xs => encodeVarint x ++ encodeArr xs

mutual
/-- Modelled from the spec: the payload bytes of one field, computed from the
descriptor's default (which supplies the field kind and the child descriptor)
and the instance value.  Booleans and integers become varints, floats and
strings are raw bytes, nested records recurse through the writer followed by
the terminator chunk, repeated records become length-prefixed sub-streams,
arrays concatenated varints, bit arrays packed bytes. -/
def encodePayload : Value → Value → List Nat
  | _, .vBool b => encodeVarint (if b then 1 else 0)
  | _, .vInt n => encodeVarint n
  | _, .vFloat bs => bs
  | _, .vStr bs => bs
  | .vRec d, .vRec f => writeFields d f ++ encodeChunk 0 []
  | _, .vRec _ => []
  | .vList d _, .vList _ es => writeElems d es
  | _, .vList _ _ => []
  | _, .vArr xs => encodeArr xs
  | _, .vBits bs => packBits bs

/-- Modelled from the spec: `write_record` without the trailing terminator —
walk descriptor and instance in parallel (ascending declared tag order) and
emit a chunk for every field whose value differs from its default. -/
def writeFields : Fields → Fields → List Nat
  | .fcons t d ds, .fcons _ v vs =>
    (if v = d then [] else encodeChunk t (encodePayload d v)) ++ writeFields ds vs
  | _, _ => []

/-- Modelled from the spec: the payload of a repeated-record field — each
element is written through the record writer into a buffer whose length is
emitted first. -/
def writeElems (d : Fields) : RecList → List Nat
  | .rnil => []
  | .rcons f fs =>
    encodeVarint (writeFields d f ++ encodeChunk 0 []).length ++
      (writeFields d f ++ encodeChunk 0 []) ++ writeElems d fs
end

/-- Modelled from the spec: `write_record` — the non-default fields' chunks
in ascending tag order followed by the terminator chunk (tag 0, zero
length). -/
def write_record (desc f : Fields) : List Nat :=
  writeFields desc f ++ encodeChunk 0 []

/-! ## Generic record reader (spec section 4.3) -/

/-- Modelled from the spec: the parse-failure taxonomy relevant to the
generic reader — `TruncatedStream` and `MalformedChunk`. -/
inductive ReadErr where
  | truncated
  | malformed
  deriving DecidableEq

/-- Modelled from the spec: decode a fixed-size scalar array payload —
varints until the payload is exhausted. -/
def readArr : List Nat → Except ReadErr (List Nat)
  | [] => .ok []
  | b :: rest =>
    match h : decodeVarint (b :: rest) with
    | none => .error .truncated
    | some (x, r) =>
      match readArr r with
      | .ok xs => .ok (x :: xs)
      | .error e => .error e
termination_by l => l.length
decreasing_by
  have key : ∀ (l : List Nat) (v : Nat) (r2 : List Nat),
      decodeVarint l = some (v, r2) → r2.length < l.length := by
    intro l
    induction l with
    | nil => intro v r2 hd; simp [decodeVarint] at hd
    | cons c cs ih =>
      intro v r2 hd
      by_cases hc : c < 128
      · simp [decodeVarint, hc] at hd
        rw [← hd.2]
        simp
      · simp [decodeVarint, hc] at hd
        cases he : decodeVarint cs with
        | none => rw [he] at hd; simp at hd
        | some p =>
          rw [he] at hd
          simp at hd
          have := ih p.1 p.2 (by rw [he])
          simp [← hd.2]
          omega
  have hlen := key (b :: rest) x r h
  omega

mutual
/-- Modelled from the spec: the chunk loop of `read_record`.  Decode one
chunk header; tag 0 stops successfully returning the record built so far and
the unconsumed rest; a declared length exceeding the remaining bytes fails
with `MalformedChunk`; a tag unknown to the descriptor skips its payload; a
known tag has its payload decoded by kind and stored into the record. -/
def readFields (desc cur : Fields) (input : List Nat) : Except ReadErr (Fields × List Nat) :=
  match h1 : decodeVarint input with
  | none => .error .truncated
  | some (tag, r1) =>
    match h2 : decodeVarint r1 with
    | none => .error .truncated
    | some (len, r2) =>
      if tag = 0 then .ok (cur, r2)
      else if len ≤ r2.length then
        match findField desc tag with
        | none => readFields desc cur (r2.drop len)
        | some d =>
          match readPayload d (r2.take len) with
          | .error e => .error e
          | .ok v => readFields desc (setField cur tag v) (r2.drop len)
      else .error .malformed
termination_by 2 * input.length
decreasing_by
  all_goals
    have key : ∀ (l : List Nat) (v : Nat) (rr : List Nat),
        decodeVarint l = some (v, rr) → rr.length < l.length := by
      intro l
      induction l with
      | nil => intro v rr hd; simp [decodeVarint] at hd
      | cons c cs ih =>
        intro v rr hd
        by_cases hc : c < 128
        · simp [decodeVarint, hc] at hd
          rw [← hd.2]
          simp
        · simp [decodeVarint, hc] at hd
          cases he : decodeVarint cs with
          | none => rw [he] at hd; simp at hd
          | some p =>
            rw [he] at hd
            simp at hd
            have := ih p.1 p.2 (by rw [he])
            simp [← hd.2]
            omega
  · have l1 := key input tag r1 h1
    have l2 := key r1 len r2 h2
    have l3 := List.length_drop len r2
    omega
  · have l1 := key input tag r1 h1
    have l2 := key r1 len r2 h2
    have l3 := List.length_take len r2
    omega
  · have l1 := key input tag r1 h1
    have l2 := key r1 len r2 h2
    have l3 := List.length_drop len r2
    omega

/-- Modelled from the spec: decode one field's payload according to the field
kind given by its trait-declared default.  Scalars decode their varint,
floats and strings copy the payload verbatim, nested records recurse through
the reader starting from the child descriptor's defaults and must consume the
payload exactly, repeated records decode length-prefixed sub-streams, arrays
and bit arrays use their payload codecs. -/
def readPayload (d : Value) (payload : List Nat) : Except ReadErr Value :=
  match d with
  | .vBool _ =>
    match decodeVarint payload with
    | some (n, []) => .ok (.vBool (n != 0))
    | some (_, _ :: _) => .error .malformed
    | none => .error .truncated
  | .vInt _ =>
    match decodeVarint payload with
    | some (n, []) => .ok (.vInt n)
    | some (_, _ :: _) => .error .malformed
    | none => .error .truncated
  | .vFloat _ => .ok (.vFloat payload)
  | .vStr _ => .ok (.vStr payload)
  | .vRec dchild =>
    match readFields dchild dchild payload with
    | .ok (f, []) => .ok (.vRec f)
    | .ok (_, _ :: _) => .error .malformed
    | .error e => .error e
  | .vList dchild _ =>
    match readElems dchild payload with
    | .ok es => .ok (.vList dchild es)
    | .error e => .error e
  | .vArr _ =>
    match readArr payload with
    | .ok xs => .ok (.vArr xs)
    | .error e => .error e
  | .vBits dbs =>
    match unpackBits dbs.length payload with
    | some bs => .ok (.vBits bs)
    | none => .error .malformed
termination_by 2 * payload.length + 1
decreasing_by
  · omega
  · omega

/-- Modelled from the spec: decode the elements of a repeated-record field —
a sequence of length-prefixed sub-chunk-streams, each read independently via
the record reader and appended in stream order. -/
def readElems (dchild : Fields) (payload : List Nat) : Except ReadErr RecList :=
  if payload.isEmpty then .ok .rnil
  else
    match h1 : decodeVarint payload with
    | none => .error .truncated
    | some (len, r) =>
      if len ≤ r.length then
        match readFields dchild dchild (r.take len) with
        | .ok (f, []) =>
          match readElems dchild (r.drop len) with
          | .ok fs => .ok (.rcons f fs)
          | .error e => .error e
        | .ok (_, _ :: _) => .error .malformed
        | .error e => .error e
      else .error .malformed
termination_by 2 * payload.length
decreasing_by
  all_goals
    have key : ∀ (l : List Nat) (v : Nat) (rr : List Nat),
        decodeVarint l = some (v, rr) → rr.length < l.length := by
      intro l
      induction l with
      | nil => intro v rr hd; simp [decodeVarint] at hd
      | cons c cs ih =>
        intro v rr hd
        by_cases hc : c < 128
        · simp [decodeVarint, hc] at hd
          rw [← hd.2]
          simp
        · simp [decodeVarint, hc] at hd
          cases he : decodeVarint cs with
          | none => rw [he] at hd; simp at hd
          | some p =>
            rw [he] at hd
            simp at hd
            have := ih p.1 p.2 (by rw [he])
            simp [← hd.2]
            omega
  · have l1 := key payload len r h1
    have l2 := List.length_take len r
    omega
  · have l1 := key payload len r h1
    have l2 := List.length_drop len r
    omega
end

/-- Modelled from the spec: `read_record` — parse one record's chunk stream
starting from the descriptor's defaults, returning the populated record and
the bytes following its terminator. -/
def read_record (desc : Fields) (input : List Nat) : Except ReadErr (Fields × List Nat) :=
  readFields desc desc input

/-- The record the reader holds after observing, in order, one chunk per
descriptor entry: fields whose value equals the default stay untouched, the
others are overwritten.  This is the intermediate state description used by
the round-trip proof. -/
def applyAll : Fields → Fields → Fields → Fields
  | cur, .fcons t d ds, .fcons _ v vs => applyAll (if v = d then cur else setField cur t v) ds vs
  | cur, _, _ => cur

/-- A chunk stream assembled from explicit (tag, payload) chunks, closed by
the terminator chunk. -/
def chunkStream : List (Nat × List Nat) → List Nat
  | [] => encodeChunk 0 []
  | c :: cs => encodeChunk c.1 c.2 ++ chunkStream cs

/-- A sequence of explicit (tag, payload) chunks without a terminator. -/
def chunksBody : List (Nat × List Nat) → List Nat
  | [] => []
  | c :: cs => encodeChunk c.1 c.2 ++ chunksBody cs

/-- A chunk the reader passes without failing: nonzero tag, and either the
tag is unknown to the descriptor or its payload decodes successfully. -/
def chunkOk (desc : Fields) (c : Nat × List Nat) : Bool :=
  (c.1 != 0) &&
    (match findField desc c.1 with
     | none => true
     | some d =>
       match readPayload d c.2 with
       | .ok _ => true
       | .error _ => false)

/-! ## Embedding of tools/python/index.cpp

The pybind11 module keeps one piece of module-level state, the string
`parsed_encoding`.  Reads are modelled as pure functions from that state (and
an environment capturing the external collaborators: the detection
candidates, the first-pass system name bytes, the hint-file probe and the
locale query) to the encoding used for the final parse and the new state. -/

/-- Embeds `StringIsAscii` (index.cpp line 94): every byte of the string is
an ASCII character.  Bytes at or above 128 are stored in a signed `char`, so
`isascii` rejects them. -/
def StringIsAscii (s : List Nat) : Bool := s.all (fun c => c < 128)

/-- The external collaborators consulted by the database heuristic:
`lcf::ReaderUtil::DetectEncodings` on the first-pass database, the raw
`db->system.system_name` bytes, whether the recoded sibling hint file exists
for a candidate, the full path string of that hint file, and
`lcf::ReaderUtil::GetLocaleEncoding`. -/
structure DetectEnv where
  candidates : List String
  systemName : List Nat
  probeHit : String → Bool
  hintPath : String → String
  locale : String

/-- Outcome of one read: the encoding the final (second, if detection ran)
parse uses, the module-level `parsed_encoding` after the call, whether the
detection heuristic ran, and whether a second parse was performed. -/
structure LoadResult where
  usedEncoding : String
  newState : String
  ranDetection : Bool
  reparsed : Bool
  deriving DecidableEq

/-- Embeds the candidate loop of `read_ldb`/`read_lcf` (index.cpp lines
391-402): for each candidate in order, if the system name is not ASCII and
the recoded hint file exists, stop with that hint file's path string. -/
def probeCandidates (env : DetectEnv) : List String → Option String
  | [] => none
  | c :: rest =>
    if StringIsAscii env.systemName then probeCandidates env rest
    else if env.probeHit c then some (env.hintPath c)
    else probeCandidates env rest

/-- Embeds the detection block shared verbatim by `read_ldb` (index.cpp lines
389-410) and the database branch of `read_lcf` (lines 340-361): run the
candidate probe (a hit assigns both `encoding` and `parsed_encoding` to the
hint file's path string), then — only if `encoding` is the empty string — fall
back to the first candidate (stored) or, with no candidates, to the locale
encoding (not stored); finally reparse. -/
def detectBlock (env : DetectEnv) (st0 enc0 : String) : LoadResult :=
  let p1 : String × String :=
    match probeCandidates env env.candidates with
    | some hp => (hp, hp)
    | none => (enc0, st0)
  let p2 : String × String :=
    match env.candidates with
    | c :: _ => if p1.1 = "" then (c, c) else (p1.1, p1.2)
    | [] => if p1.1 = "" then (env.locale, p1.2) else (p1.1, p1.2)
  ⟨p2.1, p2.2, true, true⟩

/-- Embeds `read_ldb` (index.cpp lines 387-413): load, then run the detection
block exactly when the encoding parameter is empty or the "auto" sentinel. -/
def read_ldb (env : DetectEnv) (st enc : String) : LoadResult :=
  if enc = "" ∨ enc = "auto" then detectBlock env st enc
  else ⟨enc, st, false, false⟩

/-- Embeds the parameter substitution at the top of `read_lcf`, `read_lmt`
and `read_lmu` (index.cpp lines 334-336, 416, 423): an empty or "auto"
encoding parameter is replaced by the cached `parsed_encoding`. -/
def substEncoding (st enc : String) : String :=
  if enc = "" ∨ enc = "auto" then st else enc

/-- Embeds the database branch of `read_lcf` (index.cpp lines 334-362): the
parameter is first replaced by the cached encoding, and the detection block
runs exactly when the result is still empty or "auto". -/
def read_lcf_db (env : DetectEnv) (st enc0 : String) : LoadResult :=
  let enc := substEncoding st enc0
  if enc = "" ∨ enc = "auto" then detectBlock env st enc
  else ⟨enc, st, false, false⟩

/-- Embeds the non-database branches of `read_lcf` (index.cpp lines 364-376):
after cache substitution, an encoding that is still empty falls back to the
locale encoding; no detection, no state update. -/
def read_lcf_nondb (locale st enc0 : String) : LoadResult :=
  let enc := substEncoding st enc0
  ⟨if enc = "" then locale else enc, st, false, false⟩

/-- Embeds `read_lmt` (index.cpp lines 415-420): cache substitution only; no
locale fallback, no detection, no state update. -/
def read_lmt (st enc : String) : LoadResult :=
  ⟨if enc = "" ∨ enc = "auto" then st else enc, st, false, false⟩

/-- Fuel-structured little-endian decimal digits of a natural number; the
fuel is always at least the number, making the fallback unreachable. -/
def digitsLEAux : Nat → Nat → List Nat
  | _, 0 => []
  | 0, _ + 1 => []
  | fuel + 1, n + 1 => (n + 1) % 10 :: digitsLEAux fuel ((n + 1) / 10)

/-- Little-endian decimal digits of a natural number (empty for zero). -/
def digitsLE (n : Nat) : List Nat := digitsLEAux n n

/-- The decimal rendering of a nonnegative integer as an iostream would print
it: most significant digit first, a single zero digit for zero. -/
def decimalChars (n : Nat) : List Char :=
  if n = 0 then ['0'] else ((digitsLE n).reverse).map Nat.digitChar

/-- Embeds the `std::setw(4) << std::setfill('0')` formatting of the map id
(index.cpp lines 320-323 and 425-428): left-pad the decimal rendering with
zeros to a minimum width of four; wider renderings are kept whole. -/
def mapDigits (id : Nat) : List Char :=
  List.replicate (4 - (decimalChars id).length) '0' ++ decimalChars id

/-- Embeds the map-unit path construction of `read_lcf` and `read_lmu`
(index.cpp lines 320-323 and 425-428). -/
def mapPath (id : Nat) : String :=
  "Map" ++ String.mk (mapDigits id) ++ ".lmu"

/-- Embeds the `path_or_id` dispatch of `read_lmu` (index.cpp lines 424-431):
an integer becomes the padded map path, a string is used as given. -/
def lmuPath : Nat ⊕ String → String
  | Sum.inl id => mapPath id
  | Sum.inr p => p

/-- Embeds `read_lmu` (index.cpp lines 422-435): cache substitution for the
encoding, map path construction for an integer argument; no detection, no
state update. -/
def read_lmu (st enc : String) (pid : Nat ⊕ String) : String × LoadResult :=
  (lmuPath pid, ⟨if enc = "" ∨ enc = "auto" then st else enc, st, false, false⟩)

/-- Embeds the module-level `encoding` operation (index.cpp lines 305-310):
an empty argument returns the stored encoding unchanged, a non-empty argument
replaces it and returns the new value.  The pair is (returned value, state
after the call). -/
def encoding (st arg : String) : String × String :=
  if arg = "" then (st, st) else (arg, arg)

/-- Byte values of a string of ASCII characters. -/
def strBytes (s : String) : List Nat := s.data.map Char.toNat

/-- The ten header bytes `read_lcf` compares (index.cpp lines 329-332): the
file's bytes at offsets 1 through 10, cut at the first NUL — the buffer is
zero-initialised and `std::string` construction from a `char*` stops at the
first NUL. -/
def headerOf (file : List Nat) : List Nat :=
  ((file.drop 1).take 10).takeWhile (fun b => b != 0)

/-- The four file kinds of `read_lcf`. -/
inductive FileKind where
  | database
  | maptree
  | savedata
  | mapunit
  deriving DecidableEq

/-- Signature prefix compared for database files. -/
def sigDB : List Nat := strBytes "LcfDataBas"

/-- Signature prefix compared for map-tree files. -/
def sigMT : List Nat := strBytes "LcfMapTree"

/-- Signature prefix compared for save-state files. -/
def sigSD : List Nat := strBytes "LcfSaveDat"

/-- Signature prefix compared for map-unit files. -/
def sigMU : List Nat := strBytes "LcfMapUnit"

/-- Embeds the header dispatch of `read_lcf` (index.cpp lines 338, 367-376):
compare the header bytes against the four fixed ASCII signatures; anything
else is unsupported and yields no record. -/
def dispatch (file : List Nat) : Option FileKind :=
  if headerOf file = sigDB then some .database
  else if headerOf file = sigMT then some .maptree
  else if headerOf file = sigSD then some .savedata
  else if headerOf file = sigMU then some .mapunit
  else none

/-! ## Concrete fixtures used by witnesses and counterexamples -/

/-- The string "Shift_JIS", the sole detection candidate in the fixtures. -/
def sjis : String := "Shift_JIS"

/-- The string "auto", the detection sentinel. -/
def autoS : String := "auto"

/-- The empty string. -/
def emptyS : String := ""

/-- A hint-file path as `system_path.string()` would render it. -/
def hintPathW : String := "/game/System/Title2"

/-- The string "cp1252", the fixtures' locale encoding. -/
def cp1252 : String := "cp1252"

/-- The string "Title". -/
def titleS : String := "Title"

/-- ASCII bytes of "Title", an all-ASCII system name. -/
def titleBytes : List Nat := strBytes titleS

/-- Fixture: non-ASCII system name (Shift_JIS bytes 0x83 0x5E), probe hits. -/
def env1 : DetectEnv := ⟨[sjis], [131, 94], fun _ => true, fun _ => hintPathW, cp1252⟩

/-- Fixture: ASCII system name, probe never hits, one candidate. -/
def env2 : DetectEnv := ⟨[sjis], titleBytes, fun _ => false, fun _ => hintPathW, cp1252⟩

/-- Fixture: ASCII system name, probe never hits, no candidates. -/
def env3 : DetectEnv := ⟨[], titleBytes, fun _ => false, fun _ => hintPathW, cp1252⟩

/-- Fixture: child descriptor with a single integer field at tag 1. -/
def innerDesc : Fields := .fcons 1 (.vInt 0) .fnil

/-- Fixture: a descriptor exercising all eight field kinds. -/
def descW : Fields :=
  .fcons 1 (.vBool false)
    (.fcons 2 (.vInt 0)
      (.fcons 3 (.vFloat [0, 0, 0, 0, 0, 0, 0, 0])
        (.fcons 4 (.vStr [])
          (.fcons 5 (.vRec innerDesc)
            (.fcons 6 (.vList innerDesc .rnil)
              (.fcons 7 (.vArr [0, 0, 0])
                (.fcons 8 (.vBits [false, false]) .fnil)))))))

/-- Fixture: an instance of `descW` with most fields away from their
defaults and the integer field left at its default. -/
def instW : Fields :=
  .fcons 1 (.vBool true)
    (.fcons 2 (.vInt 0)
      (.fcons 3 (.vFloat [1, 2, 3, 4, 5, 6, 7, 8])
        (.fcons 4 (.vStr [72, 105])
          (.fcons 5 (.vRec (.fcons 1 (.vInt 5) .fnil))
            (.fcons 6 (.vList innerDesc (.rcons (.fcons 1 (.vInt 9) .fnil) .rnil))
              (.fcons 7 (.vArr [300, 0, 7])
                (.fcons 8 (.vBits [true, false]) .fnil)))))))

/-! ## Primitive codec lemmas -/

theorem decodeVarint_length : ∀ (l : List Nat) (v : Nat) (r : List Nat),
    decodeVarint l = some (v, r) → r.length < l.length := by
  intro l
  induction l with
  | nil => intro v r h; simp [decodeVarint] at h
  | cons b rest ih =>
    intro v r h
    by_cases hb : b < 128
    · simp [decodeVarint, hb] at h
      rw [← h.2]
      simp
    · simp [decodeVarint, hb] at h
      cases hd : decodeVarint rest with
      | none => rw [hd] at h; simp at h
      | some p =>
        rw [hd] at h
        simp at h
        have := ih p.1 p.2 (by rw [hd])
        simp [← h.2]
        omega

theorem decode_encodeAux : ∀ (fuel n : Nat) (r : List Nat), n ≤ fuel →
    decodeVarint (encodeVarintAux fuel n ++ r) = some (n, r) := by
  intro fuel
  induction fuel with
  | zero =>
    intro n r h
    interval_cases n
    simp [encodeVarintAux, decodeVarint]
  | succ fuel ih =>
    intro n r h
    by_cases hn : n < 128
    · simp [encodeVarintAux, hn, decodeVarint]
    · have h2 : n / 128 ≤ fuel := by
        have := Nat.div_lt_self (by omega : 0 < n) (by omega : 1 < 128)
        omega
      simp only [encodeVarintAux, if_neg hn, List.cons_append]
      simp only [decodeVarint]
      rw [if_neg (by omega)]
      rw [ih (n / 128) r h2]
      simp only [Nat.add_sub_cancel]
      have hnm : n / 128 * 128 + n % 128 = n := by omega
      rw [hnm]

theorem decodeVarint_encode (n : Nat) (r : List Nat) :
    decodeVarint (encodeVarint n ++ r) = some (n, r) :=
  decode_encodeAux n n r le_rfl

/-! ## Encoding state and detection (index.cpp) -/

theorem detectBlock_flags (env : DetectEnv) (st0 enc0 : String) :
    (detectBlock env st0 enc0).ranDetection = true ∧ (detectBlock env st0 enc0).reparsed = true :=
  ⟨rfl, rfl⟩

/-- C1: on a database load whose heuristic detection probe succeeds, the code
stores and reuses the hint file's full path string — not the candidate's
text-encoding identifier — as the resolved encoding for the second parse. -/
theorem read_ldb_probe_stores_hint_path :
    (read_ldb env1 emptyS emptyS).newState = hintPathW ∧
      (read_ldb env1 emptyS emptyS).usedEncoding = hintPathW ∧ hintPathW ≠ sjis := by
  decide

/-- C2 counterexample: a database load through `read_lcf` with an empty (or
"auto") encoding parameter does not run detection when a concrete encoding is
cached from an earlier read — the cache is substituted first. -/
theorem read_lcf_cached_encoding_skips_detection :
    (read_lcf_db env1 sjis emptyS).ranDetection = false ∧
      (read_lcf_db env1 sjis autoS).ranDetection = false ∧
      (read_lcf_db env1 sjis emptyS).reparsed = false := by
  decide

/-- C2 amended: `read_ldb` runs heuristic detection (with a second parse)
exactly when its encoding parameter is empty or "auto", regardless of the
cache; the database branch of `read_lcf` first replaces an empty or "auto"
parameter by the cached encoding and runs detection exactly when the result
is still empty or "auto". -/
theorem detection_exactly_when_unresolved (env : DetectEnv) (st e : String) :
    ((read_ldb env st e).ranDetection = true ↔ (e = "" ∨ e = "auto"))
    ∧ ((read_lcf_db env st e).ranDetection = true ↔
        (substEncoding st e = "" ∨ substEncoding st e = "auto"))
    ∧ (read_ldb env st e).reparsed = (read_ldb env st e).ranDetection
    ∧ (read_lcf_db env st e).reparsed = (read_lcf_db env st e).ranDetection := by
  refine ⟨?_, ?_, ?_, ?_⟩
  · by_cases h : e = "" ∨ e = "auto"
    · simp [read_ldb, h, (detectBlock_flags env st e).1]
    · simp [read_ldb, h]
  · by_cases h : substEncoding st e = "" ∨ substEncoding st e = "auto"
    · simp [read_lcf_db, h, (detectBlock_flags env st (substEncoding st e)).1]
    · simp [read_lcf_db, h]
  · by_cases h : e = "" ∨ e = "auto"
    · simp [read_ldb, h, (detectBlock_flags env st e).1, (detectBlock_flags env st e).2]
    · simp [read_ldb, h]
  · by_cases h : substEncoding st e = "" ∨ substEncoding st e = "auto"
    · simp [read_lcf_db, h, (detectBlock_flags env st (substEncoding st e)).1,
        (detectBlock_flags env st (substEncoding st e)).2]
    · simp [read_lcf_db, h]

/-- C4: with the "auto" sentinel, a failed hint-file probe leaves the
encoding as the literal string "auto" for the second parse — the
first-candidate and locale fallbacks are skipped because the code tests only
for emptiness; with an empty parameter the first candidate is chosen. -/
theorem read_ldb_auto_bypasses_fallbacks :
    (read_ldb env2 emptyS autoS).usedEncoding = autoS ∧ autoS ≠ sjis ∧
      (read_ldb env3 emptyS autoS).usedEncoding = autoS ∧ autoS ≠ cp1252 ∧
      (read_ldb env2 emptyS emptyS).usedEncoding = sjis := by
  decide

/-- C8 counterexample: a database read whose detection falls back to the
locale encoding does not store the resolved encoding — the module state is
left unchanged. -/
theorem locale_fallback_not_cached :
    (read_ldb env3 emptyS emptyS).ranDetection = true ∧
      (read_ldb env3 emptyS emptyS).usedEncoding = cp1252 ∧
      (read_ldb env3 emptyS emptyS).newState = emptyS ∧ emptyS ≠ cp1252 := by
  decide

/-- C8 amended: a database read stores the resolved encoding when it comes
from the hint-file probe or the first-candidate fallback, but not when the
locale fallback supplies it; every later load with an empty or "auto"
parameter substitutes the stored encoding (the non-database branch of
`read_lcf` falls back to the locale only when the stored encoding is empty);
non-database loads never run detection or touch the state. -/
theorem encoding_cache_behavior :
    (∀ (env : DetectEnv) (st e hp : String), (e = "" ∨ e = "auto") →
        probeCandidates env env.candidates = some hp → hp ≠ "" →
        (read_ldb env st e).newState = hp ∧ (read_ldb env st e).usedEncoding = hp)
    ∧ (∀ (env : DetectEnv) (st c : String) (rest : List String),
        probeCandidates env env.candidates = none → env.candidates = c :: rest →
        (read_ldb env st emptyS).newState = c ∧ (read_ldb env st emptyS).usedEncoding = c)
    ∧ (∀ (env : DetectEnv) (st : String),
        probeCandidates env env.candidates = none → env.candidates = [] →
        (read_ldb env st emptyS).newState = st ∧
          (read_ldb env st emptyS).usedEncoding = env.locale)
    ∧ (∀ (st e loc : String) (pid : Nat ⊕ String), (e = "" ∨ e = "auto") → st ≠ "" →
        (read_lmt st e).usedEncoding = st ∧ ((read_lmu st e pid).2).usedEncoding = st ∧
          (read_lcf_nondb loc st e).usedEncoding = st)
    ∧ (∀ (st e loc : String) (pid : Nat ⊕ String),
        (read_lmt st e).ranDetection = false ∧ (read_lmt st e).newState = st ∧
          ((read_lmu st e pid).2).ranDetection = false ∧
          ((read_lmu st e pid).2).newState = st ∧
          (read_lcf_nondb loc st e).ranDetection = false ∧
          (read_lcf_nondb loc st e).newState = st) := by
  refine ⟨?_, ?_, ?_, ?_, ?_⟩
  · intro env st e hp he hprobe hne
    cases hc : env.candidates with
    | nil =>
      rw [hc] at hprobe
      simp [read_ldb, he, detectBlock, hprobe, hc, hne]
    | cons c rest =>
      rw [hc] at hprobe
      simp [read_ldb, he, detectBlock, hprobe, hc, hne]
  · intro env st c rest hprobe hc
    have he : emptyS = "" ∨ emptyS = "auto" := Or.inl rfl
    rw [hc] at hprobe
    simp [read_ldb, he, detectBlock, hprobe, hc, emptyS]
  · intro env st hprobe hc
    have he : emptyS = "" ∨ emptyS = "auto" := Or.inl rfl
    rw [hc] at hprobe
    simp [read_ldb, he, detectBlock, hprobe, hc, emptyS]
  · intro st e loc pid he hst
    refine ⟨by simp [read_lmt, he], by simp [read_lmu, he], ?_⟩
    simp [read_lcf_nondb, substEncoding, he, hst]
  · intro st e loc pid
    exact ⟨rfl, rfl, rfl, rfl, rfl, rfl⟩

theorem encoding_cache_behavior_w :
    ((read_ldb env1 emptyS emptyS).newState = hintPathW ∧
      (read_ldb env1 emptyS emptyS).usedEncoding = hintPathW)
    ∧ ((read_ldb env2 emptyS emptyS).newState = sjis ∧
      (read_ldb env2 emptyS emptyS).usedEncoding = sjis)
    ∧ ((read_ldb env3 sjis emptyS).newState = sjis ∧
      (read_ldb env3 sjis emptyS).usedEncoding = env3.locale)
    ∧ ((read_lmt sjis emptyS).usedEncoding = sjis ∧
      ((read_lmu sjis emptyS (Sum.inl 1)).2).usedEncoding = sjis ∧
      (read_lcf_nondb cp1252 sjis emptyS).usedEncoding = sjis)
    ∧ ((read_lmt sjis emptyS).ranDetection = false ∧ (read_lmt sjis emptyS).newState = sjis ∧
      ((read_lmu sjis emptyS (Sum.inl 1)).2).ranDetection = false ∧
      ((read_lmu sjis emptyS (Sum.inl 1)).2).newState = sjis ∧
      (read_lcf_nondb cp1252 sjis emptyS).ranDetection = false ∧
      (read_lcf_nondb cp1252 sjis emptyS).newState = sjis) :=
  ⟨encoding_cache_behavior.1 env1 emptyS emptyS hintPathW (Or.inl rfl) (by decide) (by decide),
   encoding_cache_behavior.2.1 env2 emptyS sjis [] (by decide) (by decide),
   encoding_cache_behavior.2.2.1 env3 sjis (by decide) (by decide),
   encoding_cache_behavior.2.2.2.1 sjis emptyS cp1252 (Sum.inl 1) (Or.inl rfl) (by decide),
   encoding_cache_behavior.2.2.2.2 sjis emptyS cp1252 (Sum.inl 1)⟩

/-- C9: calling the module-level `encoding` operation with the empty string
returns the stored encoding and leaves it unchanged; calling it with a
non-empty string replaces the stored encoding and returns the new value. -/
theorem encoding_get_set (st a : String) :
    (a = "" → encoding st a = (st, st)) ∧ (a ≠ "" → encoding st a = (a, a)) := by
  constructor
  · intro h
    simp [encoding, h]
  · intro h
    simp [encoding, h]

theorem encoding_get_set_w :
    encoding sjis emptyS = (sjis, sjis) ∧ encoding sjis autoS = (autoS, autoS) :=
  ⟨(encoding_get_set sjis emptyS).1 (by decide), (encoding_get_set sjis autoS).2 (by decide)⟩

/-! ## File-kind dispatch (index.cpp) -/

/-- C3: the loader dispatches on a fixed ASCII signature read from the start
of the stream; the four file kinds have pairwise distinct literal signatures,
and a stream matching none of them yields no record. -/
theorem signature_dispatch_total (file : List Nat)
    (h1 : headerOf file ≠ sigDB) (h2 : headerOf file ≠ sigMT)
    (h3 : headerOf file ≠ sigSD) (h4 : headerOf file ≠ sigMU) :
    dispatch file = none ∧ sigDB ≠ sigMT ∧ sigDB ≠ sigSD ∧ sigDB ≠ sigMU ∧
      sigMT ≠ sigSD ∧ sigMT ≠ sigMU ∧ sigSD ≠ sigMU := by
  refine ⟨?_, by decide, by decide, by decide, by decide, by decide, by decide⟩
  simp [dispatch, h1, h2, h3, h4]

theorem signature_dispatch_total_w :
    dispatch [1, 2, 3] = none ∧ sigDB ≠ sigMT ∧ sigDB ≠ sigSD ∧ sigDB ≠ sigMU ∧
      sigMT ≠ sigSD ∧ sigMT ≠ sigMU ∧ sigSD ≠ sigMU :=
  signature_dispatch_total [1, 2, 3] (by decide) (by decide) (by decide) (by decide)

/-! ## Map-unit path construction (index.cpp) -/

theorem digitsLEAux_length : ∀ (fuel n k : Nat), n < 10 ^ k → (digitsLEAux fuel n).length ≤ k := by
  intro fuel
  induction fuel with
  | zero =>
    intro n k h
    cases n <;> simp [digitsLEAux]
  | succ fuel ih =>
    intro n k h
    cases n with
    | zero => simp [digitsLEAux]
    | succ m =>
      cases k with
      | zero => simp at h
      | succ k =>
        simp only [digitsLEAux, List.length_cons]
        have hlt : m + 1 < 10 ^ k * 10 := by
          rw [pow_succ] at h
          omega
        have hdiv : (m + 1) / 10 < 10 ^ k :=
          (Nat.div_lt_iff_lt_mul (by norm_num)).mpr hlt
        have := ih ((m + 1) / 10) k hdiv
        omega

theorem decimalChars_length_le (n : Nat) (h : n < 10000) : (decimalChars n).length ≤ 4 := by
  by_cases h0 : n = 0
  · simp [decimalChars, h0]
  · have h4 : n < 10 ^ 4 := by norm_num; omega
    have := digitsLEAux_length n n 4 h4
    simp [decimalChars, h0, digitsLE]
    omega

/-- C10 counterexample: a map id with five decimal digits is not truncated to
four digits — `std::setw` sets only a minimum width, so the claimed
exactly-four-digit form fails for id 12345. -/
theorem map_path_not_four_digits :
    mapPath 12345 = "Map12345.lmu" ∧ (mapDigits 12345).length ≠ 4 ∧
      (read_lmu emptyS emptyS (Sum.inl 12345)).1 = mapPath 12345 := by
  refine ⟨by decide, by decide, rfl⟩

/-- C10 amended: for every id below 10000 the map-unit path is "Map" followed
by the id's decimal rendering zero-padded to exactly four digits followed by
".lmu"; wider ids keep all their digits. -/
theorem map_path_four_digit_padding (st e : String) (id : Nat) (h : id < 10000) :
    (read_lmu st e (Sum.inl id)).1 = mapPath id ∧
      mapPath id = "Map" ++ String.mk (mapDigits id) ++ ".lmu" ∧
      (mapDigits id).length = 4 := by
  refine ⟨rfl, rfl, ?_⟩
  have := decimalChars_length_le id h
  have h1 : 1 ≤ (decimalChars id).length := by
    by_cases h0 : id = 0
    · simp [decimalChars, h0]
    · obtain ⟨m, rfl⟩ : ∃ m, id = m + 1 := ⟨id - 1, by omega⟩
      simp [decimalChars, digitsLE, digitsLEAux]
  simp [mapDigits]
  omega

theorem map_path_four_digit_padding_w :
    mapPath 1 = "Map0001.lmu" ∧
      ((read_lmu sjis emptyS (Sum.inl 1)).1 = mapPath 1 ∧
        mapPath 1 = "Map" ++ String.mk (mapDigits 1) ++ ".lmu" ∧
        (mapDigits 1).length = 4) :=
  ⟨by decide, map_path_four_digit_padding sjis emptyS 1 (by decide)⟩

/-! ## Codec helper lemmas -/

theorem take_len_append (p r : List Nat) : (p ++ r).take p.length = p := by
  induction p with
  | nil => simp
  | cons a p ih => simp [ih]

theorem drop_len_append (p r : List Nat) : (p ++ r).drop p.length = r := by
  induction p with
  | nil => simp
  | cons a p ih => simp [ih]

theorem encodeVarint_ne_nil (n : Nat) : encodeVarint n ≠ [] := by
  unfold encodeVarint
  cases n with
  | zero => simp [encodeVarintAux]
  | succ m =>
    simp only [encodeVarintAux]
    split <;> simp

theorem decodeVarint_encode_nil (n : Nat) : decodeVarint (encodeVarint n) = some (n, []) := by
  have := decodeVarint_encode n []
  simpa using this

theorem readArr_cons (l : List Nat) (x : Nat) (r : List Nat) (h : decodeVarint l = some (x, r)) :
    readArr l =
      match readArr r with
      | .ok xs => .ok (x :: xs)
      | .error e => .error e := by
  cases l with
  | nil => simp [decodeVarint] at h
  | cons b bs =>
    rw [readArr.eq_def]
    split
    · next heq =>
      exact List.noConfusion heq
    · next x2 r2 heq =>
      injection heq with hb hbs
      subst hb
      subst hbs
      split
      · next heq2 =>
        rw [heq2] at h
        exact Option.noConfusion h
      · next x3 r3 heq2 =>
        rw [heq2] at h
        injection h with hp
        injection hp with hx hr
        rw [hx, hr]

theorem readArr_encodeArr (xs : List Nat) : readArr (encodeArr xs) = .ok xs := by
  induction xs with
  | nil => simp [encodeArr, readArr]
  | cons x xs ih =>
    simp only [encodeArr]
    rw [readArr_cons (encodeVarint x ++ encodeArr xs) x (encodeArr xs) (decodeVarint_encode x _)]
    rw [ih]

theorem bitsToByte_false (bs : List Bool) : bitsToByte (false :: bs) = 2 * bitsToByte bs := by
  have hb : bitsToByte (false :: bs) = (if false then 1 else 0) + 2 * bitsToByte bs := rfl
  simpa using hb

theorem bitsToByte_true (bs : List Bool) : bitsToByte (true :: bs) = 1 + 2 * bitsToByte bs := by
  have hb : bitsToByte (true :: bs) = (if true then 1 else 0) + 2 * bitsToByte bs := rfl
  simpa using hb

theorem byteToBits_bitsToByte (l : List Bool) : byteToBits l.length (bitsToByte l) = l := by
  induction l with
  | nil => simp [byteToBits]
  | cons b bs ih =>
    cases b
    · rw [bitsToByte_false]
      show ((2 * bitsToByte bs % 2 == 1) :: byteToBits bs.length (2 * bitsToByte bs / 2)) =
        false :: bs
      have h1 : 2 * bitsToByte bs % 2 = 0 := by omega
      have h2 : 2 * bitsToByte bs / 2 = bitsToByte bs := by omega
      rw [h1, h2, ih]
      simp
    · rw [bitsToByte_true]
      show (((1 + 2 * bitsToByte bs) % 2 == 1) ::
          byteToBits bs.length ((1 + 2 * bitsToByte bs) / 2)) = true :: bs
      have h1 : (1 + 2 * bitsToByte bs) % 2 = 1 := by omega
      have h2 : (1 + 2 * bitsToByte bs) / 2 = bitsToByte bs := by omega
      rw [h1, h2, ih]
      simp

theorem unpackBits_packBits_aux : ∀ (n : Nat) (bs : List Bool), bs.length ≤ n →
    unpackBits bs.length (packBits bs) = some bs := by
  intro n
  induction n with
  | zero =>
    intro bs h
    cases bs with
    | nil => simp [packBits, unpackBits]
    | cons b tl => simp at h
  | succ n ih =>
    intro bs h
    cases bs with
    | nil => simp [packBits, unpackBits]
    | cons b tl =>
      rw [packBits]
      have hdl : ((b :: tl).drop 8).length = tl.length + 1 - 8 := by
        simp
      have hrec : unpackBits (tl.length + 1 - 8) (packBits ((b :: tl).drop 8)) =
          some ((b :: tl).drop 8) := by
        rw [← hdl]
        apply ih
        rw [hdl]
        simp only [List.length_cons] at h
        omega
      have hlc : (b :: tl).length = tl.length + 1 := by simp
      rw [hlc]
      rw [unpackBits]
      have hmin : tl.length + 1 - min (tl.length + 1) 8 = tl.length + 1 - 8 := by omega
      rw [hmin, hrec]
      have htk : min (tl.length + 1) 8 = ((b :: tl).take 8).length := by
        simp
        omega
      rw [htk, byteToBits_bitsToByte]
      simp

theorem unpackBits_packBits (bs : List Bool) : unpackBits bs.length (packBits bs) = some bs :=
  unpackBits_packBits_aux bs.length bs le_rfl

/-! ## Reader stepping lemmas -/

theorem readFields_term (desc cur : Fields) (rest : List Nat) :
    readFields desc cur (encodeChunk 0 [] ++ rest) = .ok (cur, rest) := by
  have h : encodeChunk 0 [] ++ rest = 0 :: 0 :: rest := rfl
  rw [h, readFields.eq_def]
  simp [decodeVarint]

theorem readFields_chunk (desc cur : Fields) (t : Nat) (p rest : List Nat) (ht : t ≠ 0) :
    readFields desc cur (encodeChunk t p ++ rest) =
      match findField desc t with
      | none => readFields desc cur rest
      | some d =>
        match readPayload d p with
        | .ok v => readFields desc (setField cur t v) rest
        | .error e => .error e := by
  have e1 : encodeChunk t p ++ rest = encodeVarint t ++ (encodeVarint p.length ++ (p ++ rest)) := by
    simp [encodeChunk]
  rw [e1, readFields.eq_def]
  split
  · next heq => rw [decodeVarint_encode] at heq; exact absurd heq (by simp)
  · next tag r1 heq =>
    rw [decodeVarint_encode] at heq
    simp only [Option.some.injEq, Prod.mk.injEq] at heq
    obtain ⟨rfl, rfl⟩ : tag = t ∧ r1 = encodeVarint p.length ++ (p ++ rest) := ⟨heq.1.symm, heq.2.symm⟩
    split
    · next heq2 => rw [decodeVarint_encode] at heq2; exact absurd heq2 (by simp)
    · next len r2 heq2 =>
      rw [decodeVarint_encode] at heq2
      simp only [Option.some.injEq, Prod.mk.injEq] at heq2
      obtain ⟨rfl, rfl⟩ : len = p.length ∧ r2 = p ++ rest := ⟨heq2.1.symm, heq2.2.symm⟩
      rw [if_neg ht, if_pos (by simp)]
      rw [take_len_append, drop_len_append]
      cases hf : findField desc tag with
      | none => simp [hf]
      | some d =>
        simp only [hf]
        cases hp : readPayload d p with
        | error e => simp [hp]
        | ok v => simp [hp]

theorem readElems_step (d : Fields) (w rest : List Nat) :
    readElems d (encodeVarint w.length ++ (w ++ rest)) =
      match readFields d d w with
      | .ok (f, []) =>
        (match readElems d rest with
         | .ok fs => .ok (.rcons f fs)
         | .error e => .error e)
      | .ok (_, _ :: _) => .error .malformed
      | .error e => .error e := by
  rw [readElems.eq_def]
  split
  · next hemp =>
    exfalso
    cases hv : encodeVarint w.length with
    | nil => exact encodeVarint_ne_nil _ hv
    | cons b bs =>
      rw [hv] at hemp
      simp at hemp
  · next hemp =>
    split
    · next heq =>
      rw [decodeVarint_encode] at heq
      exact Option.noConfusion heq
    · next len r heq =>
      rw [decodeVarint_encode] at heq
      injection heq with hp
      injection hp with hl hr
      subst hl
      subst hr
      rw [if_pos (by simp)]
      rw [take_len_append, drop_len_append]

/-! ## Field update bookkeeping -/

theorem setField_head (t : Nat) (c v : Value) (cur : Fields) :
    setField (.fcons t c cur) t v = .fcons t v cur := by
  simp [setField]

theorem setField_skip (t t1 : Nat) (c v : Value) (cur : Fields) (h : t ≠ t1) :
    setField (.fcons t c cur) t1 v = .fcons t c (setField cur t1 v) := by
  simp [setField, h]

theorem applyAll_untouched (ds vs cur : Fields) (t : Nat) (c : Value)
    (h : (fieldTags ds).contains t = false) :
    applyAll (.fcons t c cur) ds vs = .fcons t c (applyAll cur ds vs) := by
  cases ds with
  | fnil => simp [applyAll]
  | fcons t1 d1 ds =>
    simp only [fieldTags, List.contains_cons, Bool.or_eq_false_iff, beq_eq_false_iff_ne] at h
    obtain ⟨hne, htail⟩ := h
    cases vs with
    | fnil => simp [applyAll]
    | fcons t2 v2 vs =>
      simp only [applyAll]
      by_cases hv : v2 = d1
      · rw [if_pos hv, if_pos hv]
        exact applyAll_untouched ds vs cur t c (by simpa using htail)
      · rw [if_neg hv, if_neg hv]
        rw [setField_skip t t1 c v2 cur hne]
        exact applyAll_untouched ds vs (setField cur t1 v2) t c (by simpa using htail)
termination_by sizeOf ds

theorem applyAll_self (ds vs : Fields) (hwf : fieldsWF ds = true)
    (hc : fieldsCompat ds vs = true) : applyAll ds ds vs = vs := by
  cases ds with
  | fnil =>
    cases vs with
    | fnil => simp [applyAll]
    | fcons t v vs => simp [fieldsCompat] at hc
  | fcons t d ds =>
    cases vs with
    | fnil => simp [fieldsCompat] at hc
    | fcons t2 v vs =>
      simp only [fieldsWF, Bool.and_eq_true, Bool.not_eq_true'] at hwf
      obtain ⟨⟨⟨ht0, hcont⟩, hvwf⟩, hwf2⟩ := hwf
      simp only [fieldsCompat, Bool.and_eq_true, beq_iff_eq] at hc
      obtain ⟨⟨hteq, hvc⟩, hc2⟩ := hc
      subst hteq
      simp only [applyAll]
      by_cases hv : v = d
      · rw [if_pos hv]
        rw [applyAll_untouched ds vs ds t d hcont]
        rw [applyAll_self ds vs hwf2 hc2, hv]
      · rw [if_neg hv, setField_head]
        rw [applyAll_untouched ds vs ds t v hcont]
        rw [applyAll_self ds vs hwf2 hc2]
termination_by sizeOf ds

/-! ## Descriptor self-lookup -/

theorem subDesc_cons (ds desc : Fields) (t0 : Nat) (v0 : Value)
    (h : subDesc desc ds = true) (hc : (fieldTags ds).contains t0 = false) :
    subDesc (.fcons t0 v0 desc) ds = true := by
  cases ds with
  | fnil => simp [subDesc]
  | fcons t dv ds =>
    simp only [fieldTags, List.contains_cons, Bool.or_eq_false_iff, beq_eq_false_iff_ne] at hc
    obtain ⟨hne, htail⟩ := hc
    simp only [subDesc, Bool.and_eq_true] at h ⊢
    refine ⟨⟨h.1.1, ?_⟩, subDesc_cons ds desc t0 v0 h.2 (by simpa using htail)⟩
    have hfind : findField desc t = some dv := by simpa using h.1.2
    have hstep : findField (.fcons t0 v0 desc) t = findField desc t := by
      simp [findField, hne]
    rw [hstep, hfind]
    simp
termination_by sizeOf ds

theorem fieldsWF_subDesc (desc : Fields) (h : fieldsWF desc = true) :
    subDesc desc desc = true := by
  cases desc with
  | fnil => simp [subDesc]
  | fcons t v fs =>
    simp only [fieldsWF, Bool.and_eq_true, Bool.not_eq_true'] at h
    obtain ⟨⟨⟨ht0, hcont⟩, hvwf⟩, hwf2⟩ := h
    simp only [subDesc, Bool.and_eq_true]
    refine ⟨⟨ht0, ?_⟩, subDesc_cons fs fs t v (fieldsWF_subDesc fs hwf2) hcont⟩
    simp [findField]
termination_by sizeOf desc

/-! ## Round-trip: the writer's output parses back to the same record -/

mutual
theorem readPayload_encodePayload (d v : Value) (hwf : valWF d = true)
    (hc : valCompat d v = true) : readPayload d (encodePayload d v) = .ok v := by
  cases d <;> cases v <;>
      simp only [valCompat, Bool.and_eq_true, beq_iff_eq] at hc <;>
      try (exact Bool.noConfusion hc)
  · rename_i a b
    cases b <;> simp [encodePayload, readPayload, decodeVarint_encode_nil]
  · simp [encodePayload, readPayload, decodeVarint_encode_nil]
  · simp [encodePayload, readPayload]
  · simp [encodePayload, readPayload]
  · rename_i dchild f
    simp only [valWF] at hwf
    have hsub := fieldsWF_subDesc dchild hwf
    have h2 := readFields_writeFields dchild f dchild dchild (encodeChunk 0 []) hwf hc hsub
    have h3 : readFields dchild f (encodeChunk 0 []) = .ok (f, []) := by
      have := readFields_term dchild f []
      simpa using this
    simp only [encodePayload, readPayload]
    simp only [h2, applyAll_self dchild f hwf hc, h3]
  · rename_i dchild es0 d2 es
    simp only [valWF, Bool.and_eq_true] at hwf
    obtain ⟨hwfd, _⟩ := hwf
    obtain ⟨hdd, hrc⟩ := hc
    subst hdd
    simp only [encodePayload, readPayload]
    simp only [readElems_writeElems es dchild hwfd hrc]
  · simp [encodePayload, readPayload, readArr_encodeArr]
  · rename_i dbs bs
    simp only [encodePayload, readPayload]
    rw [hc]
    simp only [unpackBits_packBits]
termination_by sizeOf v

theorem readFields_writeFields (ds vs desc cur : Fields) (trailer : List Nat)
    (hwf : fieldsWF ds = true) (hc : fieldsCompat ds vs = true)
    (hsub : subDesc desc ds = true) :
    readFields desc cur (writeFields ds vs ++ trailer) =
      readFields desc (applyAll cur ds vs) trailer := by
  cases ds with
  | fnil =>
    cases vs with
    | fnil => simp [writeFields, applyAll]
    | fcons t v vs => simp [fieldsCompat] at hc
  | fcons t d ds2 =>
    cases vs with
    | fnil => simp [fieldsCompat] at hc
    | fcons t2 v vs2 =>
      simp only [fieldsWF, Bool.and_eq_true, Bool.not_eq_true'] at hwf
      obtain ⟨⟨⟨ht0, hcont⟩, hvwf⟩, hwf2⟩ := hwf
      simp only [fieldsCompat, Bool.and_eq_true, beq_iff_eq] at hc
      obtain ⟨⟨hteq, hvc⟩, hc2⟩ := hc
      simp only [subDesc, Bool.and_eq_true] at hsub
      obtain ⟨⟨ht0b, hfind⟩, hsub2⟩ := hsub
      have htne : t ≠ 0 := by simpa using ht0
      have hfind2 : findField desc t = some d := by simpa using hfind
      simp only [writeFields, applyAll]
      by_cases hv : v = d
      · rw [if_pos hv, if_pos hv]
        simp only [List.nil_append]
        exact readFields_writeFields ds2 vs2 desc cur trailer hwf2 hc2 hsub2
      · rw [if_neg hv, if_neg hv]
        rw [List.append_assoc]
        rw [readFields_chunk desc cur t (encodePayload d v) _ htne]
        simp only [hfind2, readPayload_encodePayload d v hvwf hvc]
        exact readFields_writeFields ds2 vs2 desc (setField cur t v) trailer hwf2 hc2 hsub2
termination_by sizeOf vs

theorem readElems_writeElems (es : RecList) (d : Fields) (hwf : fieldsWF d = true)
    (hc : recListCompat d es = true) : readElems d (writeElems d es) = .ok es := by
  cases es with
  | rnil => simp [writeElems, readElems]
  | rcons f fs =>
    simp only [recListCompat, Bool.and_eq_true] at hc
    obtain ⟨hcf, hcfs⟩ := hc
    simp only [writeElems]
    rw [List.append_assoc]
    rw [readElems_step d (writeFields d f ++ encodeChunk 0 []) (writeElems d fs)]
    have h2 := readFields_writeFields d f d d (encodeChunk 0 []) hwf hcf (fieldsWF_subDesc d hwf)
    have h3 : readFields d f (encodeChunk 0 []) = .ok (f, []) := by
      have := readFields_term d f []
      simpa using this
    simp only [h2, applyAll_self d f hwf hcf, h3]
    simp only [readElems_writeElems fs d hwf hcfs]
termination_by sizeOf es
end

/-- C5: serializing any record compatible with a well-formed trait descriptor
and parsing the produced bytes yields a record equal to the original in every
field, for every field kind, with fields left at their defaults omitted from
the stream and restored by the reader's default-fallback. -/
theorem write_read_record_roundtrip (desc f : Fields)
    (hwf : fieldsWF desc = true) (hc : fieldsCompat desc f = true) :
    read_record desc (write_record desc f) = .ok (f, []) := by
  unfold read_record write_record
  rw [readFields_writeFields desc f desc desc (encodeChunk 0 []) hwf hc
    (fieldsWF_subDesc desc hwf)]
  rw [applyAll_self desc f hwf hc]
  have := readFields_term desc f []
  simpa using this

theorem write_read_record_roundtrip_w :
    fieldsWF descW = true ∧ fieldsCompat descW instW = true ∧
      read_record descW (write_record descW instW) = .ok (instW, []) :=
  ⟨by decide, by decide, write_read_record_roundtrip descW instW (by decide) (by decide)⟩

/-! ## Forward compatibility: unknown tags are skipped -/

theorem insert_unknown_aux : ∀ (cs1 : List (Nat × List Nat)) (desc cur : Fields) (t : Nat)
    (p : List Nat) (cs2 : List (Nat × List Nat)),
    (∀ c ∈ cs1, c.1 ≠ 0) → t ≠ 0 → findField desc t = none →
    readFields desc cur (chunkStream (cs1 ++ (t, p) :: cs2)) =
      readFields desc cur (chunkStream (cs1 ++ cs2)) := by
  intro cs1
  induction cs1 with
  | nil =>
    intro desc cur t p cs2 hall ht hf
    simp only [List.nil_append, chunkStream]
    rw [readFields_chunk desc cur t p _ ht]
    simp [hf]
  | cons c cs1 ih =>
    intro desc cur t p cs2 hall ht hf
    have hc0 : c.1 ≠ 0 := hall c (List.mem_cons_self c cs1)
    have hall2 : ∀ x ∈ cs1, x.1 ≠ 0 := fun x hx => hall x (List.mem_cons_of_mem c hx)
    simp only [List.cons_append, chunkStream]
    rw [readFields_chunk desc cur c.1 c.2 _ hc0, readFields_chunk desc cur c.1 c.2 _ hc0]
    cases hfc : findField desc c.1 with
    | none =>
      simp only [hfc]
      exact ih desc cur t p cs2 hall2 ht hf
    | some dd =>
      simp only [hfc]
      cases hp : readPayload dd c.2 with
      | error e => simp [hp]
      | ok v =>
        simp only [hp]
        exact ih desc (setField cur c.1 v) t p cs2 hall2 ht hf

/-- C6: inserting one size-prefixed chunk whose tag is unknown to the record
type (and not the terminator) anywhere between the chunks of a stream leaves
the parse result unchanged — in particular a successful parse stays
successful with an identical record, and unknown tags never cause a parse
failure. -/
theorem unknown_chunk_ignored (desc : Fields) (cs1 cs2 : List (Nat × List Nat)) (t : Nat)
    (p : List Nat) (hall : ∀ c ∈ cs1, c.1 ≠ 0) (ht : t ≠ 0)
    (hf : findField desc t = none) :
    read_record desc (chunkStream (cs1 ++ (t, p) :: cs2)) =
      read_record desc (chunkStream (cs1 ++ cs2)) :=
  insert_unknown_aux cs1 desc desc t p cs2 hall ht hf

theorem unknown_chunk_ignored_w :
    (∀ c ∈ [((1 : Nat), encodeVarint 7)], c.1 ≠ 0) ∧ (99 : Nat) ≠ 0 ∧
      findField innerDesc 99 = none ∧
      read_record innerDesc (chunkStream ([(1, encodeVarint 7)] ++ (99, [9]) :: [])) =
        read_record innerDesc (chunkStream ([(1, encodeVarint 7)] ++ [])) :=
  ⟨by decide, by decide, by decide,
    unknown_chunk_ignored innerDesc [(1, encodeVarint 7)] [] 99 [9]
      (by decide) (by decide) (by decide)⟩

/-! ## Malformed declared lengths -/

theorem oversized_aux : ∀ (cs : List (Nat × List Nat)) (desc cur : Fields) (t len : Nat)
    (p : List Nat), (∀ c ∈ cs, chunkOk desc c = true) → t ≠ 0 → p.length < len →
    readFields desc cur (chunksBody cs ++ (encodeVarint t ++ encodeVarint len ++ p)) =
      .error .malformed := by
  intro cs
  induction cs with
  | nil =>
    intro desc cur t len p hok ht hlen
    simp only [chunksBody, List.nil_append]
    have e1 : encodeVarint t ++ encodeVarint len ++ p =
        encodeVarint t ++ (encodeVarint len ++ p) := by
      simp
    rw [e1, readFields.eq_def]
    split
    · next heq =>
      rw [decodeVarint_encode] at heq
      exact Option.noConfusion heq
    · next tag r1 heq =>
      rw [decodeVarint_encode] at heq
      injection heq with hp2
      injection hp2 with htag hr1
      subst htag
      subst hr1
      split
      · next heq2 =>
        rw [decodeVarint_encode] at heq2
        exact Option.noConfusion heq2
      · next len2 r2 heq2 =>
        rw [decodeVarint_encode] at heq2
        injection heq2 with hp3
        injection hp3 with hlen2 hr2
        subst hlen2
        subst hr2
        rw [if_neg ht, if_neg (by omega)]
  | cons c cs ih =>
    intro desc cur t len p hok ht hlen
    have hcok : chunkOk desc c = true := hok c (List.mem_cons_self c cs)
    have hok2 : ∀ x ∈ cs, chunkOk desc x = true := fun x hx => hok x (List.mem_cons_of_mem c hx)
    simp only [chunkOk, Bool.and_eq_true, bne_iff_ne] at hcok
    obtain ⟨hc1ne, hpl⟩ := hcok
    simp only [chunksBody]
    rw [List.append_assoc]
    rw [readFields_chunk desc cur c.1 c.2 _ hc1ne]
    cases hfc : findField desc c.1 with
    | none =>
      simp only [hfc]
      exact ih desc cur t len p hok2 ht hlen
    | some dd =>
      simp only [hfc]
      simp only [hfc] at hpl
      cases hp : readPayload dd c.2 with
      | error e =>
        simp only [hp] at hpl
        simp at hpl
      | ok v =>
        simp only [hp]
        exact ih desc (setField cur c.1 v) t len p hok2 ht hlen

/-- C7: when the reader meets a chunk whose declared length exceeds the bytes
remaining in the stream — here the stream's final chunk header declares `len`
but only `p` remains, after any prefix of passable chunks — `read_record`
fails with `MalformedChunk` and returns no partial record. -/
theorem oversized_chunk_malformed (desc : Fields) (cs : List (Nat × List Nat)) (t len : Nat)
    (p : List Nat) (hok : ∀ c ∈ cs, chunkOk desc c = true) (ht : t ≠ 0)
    (hlen : p.length < len) :
    read_record desc (chunksBody cs ++ (encodeVarint t ++ encodeVarint len ++ p)) =
        .error .malformed ∧
      ∀ (r : Fields) (rest : List Nat),
        read_record desc (chunksBody cs ++ (encodeVarint t ++ encodeVarint len ++ p)) ≠
          .ok (r, rest) := by
  have h : read_record desc (chunksBody cs ++ (encodeVarint t ++ encodeVarint len ++ p)) =
      .error .malformed := oversized_aux cs desc desc t len p hok ht hlen
  refine ⟨h, fun r rest hcontra => ?_⟩
  rw [h] at hcontra
  exact Except.noConfusion hcontra

theorem oversized_chunk_malformed_w :
    ((1 : Nat) ≠ 0) ∧ (([1, 2] : List Nat).length < 5) ∧
      (read_record innerDesc (chunksBody [] ++ (encodeVarint 1 ++ encodeVarint 5 ++ [1, 2])) =
          .error .malformed ∧
        ∀ (r : Fields) (rest : List Nat),
          read_record innerDesc
              (chunksBody [] ++ (encodeVarint 1 ++ encodeVarint 5 ++ [1, 2])) ≠
            .ok (r, rest)) :=
  ⟨by decide, by decide,
    oversized_chunk_malformed innerDesc [] 1 5 [1, 2] (by simp) (by decide) (by decide)⟩

end Lcf
